import Mathlib

/-!
Verification of the `simple` small-step reduction engine.

Shallow embedding of `src/main.rs`: a small-step operational-semantics
evaluator over a closed expression union (Number, Boolean, StringLiteral,
DoNothing, Variable, Add, Multiply, LessThan, Assign, Terminal-with-environment)
driven by a `Machine` holding a current expression and an environment.

Modelling choices:
* Rust `i32` payloads are carried as `Int`, and the two arithmetic sites
  (`x + y` at main.rs:133, `x * y` at main.rs:157) apply explicit
  two's-complement wrapping to 32 bits (`wrap32`), the release-mode overflow
  semantics of `i32` (a debug build panics at the same inputs instead; either
  way the exact integer result is not produced at overflow).
* Rust `HashMap<String, Expression>` is modelled as an association list with
  key-unique insert-or-overwrite semantics (`envInsert`) and first-match
  lookup (`envLookup`); `HashMap::get`/`insert` observable behaviour on the
  mapping is exactly this.
* Rust `panic!` (and the `.unwrap()` on a missing key) is modelled as
  `Except.error` carrying a constructor per distinct panic site; a panic in a
  nested `reduce` call propagates, as in Rust, because every caller forwards
  the error.
* `Boolean::True/False` (with `From<bool>`) is modelled as `Bool`.
-/

/-- One constructor per distinct failure point in `src/main.rs`:
`panic!("Not Implemented")` in `Expression::reduce`,
`panic!("Invalid expression")` in `Add/Multiply/LessThan::reduce`,
`.unwrap()` on a missing key in `Variable::reduce` (the spec's
`UndefinedVariable`), and `panic!("Invalid variable")` in `Variable::reduce`
(grouped with `Invalid expression` under the spec's `TypeMismatch`). -/
inductive ReduceError where
  | notImplemented
  | invalidExpression
  | undefinedVariable
  | invalidVariable
deriving Repr, DecidableEq

/-- Two's-complement wrapping of an integer to the 32-bit range
`[-2147483648, 2147483648)`: the behaviour of Rust release-mode `i32`
addition and multiplication at overflow. -/
def wrap32 (n : Int) : Int :=
  (n + 2147483648) % 4294967296 - 2147483648

/-- `n` is representable as an `i32`. -/
def int32Range (n : Int) : Bool :=
  decide (-2147483648 ≤ n) && decide (n < 2147483648)

/-- The `Expression` enum of `src/main.rs`. `assignExpr` keeps the `Env`
component the Rust `AssignExpr((Assign, Env))` variant carries, and
`terminalExpr` carries the environment of `TerminalExpr((DoNothing, Env))`
(the wrapped `DoNothing` is a unit and is left implicit). -/
inductive Expression where
  | numberExpr (n : Int)
  | booleanExpr (b : Bool)
  | strExpr (s : String)
  | doNothingExpr
  | variableExpr (name : String)
  | addExpr (left right : Expression)
  | multiplyExpr (left right : Expression)
  | lessThanExpr (left right : Expression)
  | assignExpr (name : String) (expression : Expression)
      (carried : List (String × Expression))
  | terminalExpr (env : List (String × Expression))
deriving Repr

/-- `type Env = HashMap<String, Expression>`, as an association list with
unique keys maintained by `envInsert`. -/
abbrev Env := List (String × Expression)

/-- `HashMap::get` on the mapping: the value bound to `k`, if any. -/
def envLookup : Env → String → Option Expression
  | [], _ => none
  | (k', v') :: rest, k => if k' = k then some v' else envLookup rest k

/-- `HashMap::insert`: bind `k` to `v`, overwriting an existing binding. -/
def envInsert : Env → String → Expression → Env
  | [], k, v => [(k, v)]
  | (k', v') :: rest, k, v =>
      if k' = k then (k, v) :: rest else (k', v') :: envInsert rest k v

/-- `Reducible::is_reducible` for `Expression` (src/main.rs lines 91-104). -/
def Expression.is_reducible : Expression → Bool
  | .addExpr _ _ => true
  | .multiplyExpr _ _ => true
  | .lessThanExpr _ _ => true
  | .variableExpr _ => true
  | .assignExpr _ _ _ => true
  | .numberExpr _ => false
  | .booleanExpr _ => false
  | .strExpr _ => false
  | .doNothingExpr => false
  | .terminalExpr _ => false

/-- `Reducible::reduce` for `Expression` (src/main.rs lines 106-115),
with the per-variant rules of `Add::reduce` (118-139), `Multiply::reduce`
(141-162), `LessThan::reduce` (164-185), `Variable::reduce` (187-195) and
`Assign::reduce` (197-212) inlined at their dispatch sites.  The `_ =>
panic!("Not Implemented")` catch-all (terminal variants) is written out
per constructor. -/
def Expression.reduce : Expression → Env → Except ReduceError Expression
  | .addExpr l r, env =>
      if l.is_reducible then
        match l.reduce env with
        | .ok l' => .ok (.addExpr l' r)
        | .error e => .error e
      else if r.is_reducible then
        match r.reduce env with
        | .ok r' => .ok (.addExpr l r')
        | .error e => .error e
      else
        match l, r with
        | .numberExpr x, .numberExpr y => .ok (.numberExpr (wrap32 (x + y)))
        | _, _ => .error .invalidExpression
  | .multiplyExpr l r, env =>
      if l.is_reducible then
        match l.reduce env with
        | .ok l' => .ok (.multiplyExpr l' r)
        | .error e => .error e
      else if r.is_reducible then
        match r.reduce env with
        | .ok r' => .ok (.multiplyExpr l r')
        | .error e => .error e
      else
        match l, r with
        | .numberExpr x, .numberExpr y => .ok (.numberExpr (wrap32 (x * y)))
        | _, _ => .error .invalidExpression
  | .lessThanExpr l r, env =>
      if l.is_reducible then
        match l.reduce env with
        | .ok l' => .ok (.lessThanExpr l' r)
        | .error e => .error e
      else if r.is_reducible then
        match r.reduce env with
        | .ok r' => .ok (.lessThanExpr l r')
        | .error e => .error e
      else
        match l, r with
        | .numberExpr x, .numberExpr y => .ok (.booleanExpr (decide (x < y)))
        | _, _ => .error .invalidExpression
  | .variableExpr name, env =>
      match envLookup env name with
      | none => .error .undefinedVariable
      | some (.numberExpr x) => .ok (.numberExpr x)
      | some (.strExpr s) => .ok (.strExpr s)
      | some _ => .error .invalidVariable
  | .assignExpr name e _, env =>
      if e.is_reducible then
        match e.reduce env with
        | .ok e' => .ok (.assignExpr name e' env)
        | .error err => .error err
      else
        .ok (.terminalExpr (envInsert env name e))
  | .numberExpr _, _ => .error .notImplemented
  | .booleanExpr _, _ => .error .notImplemented
  | .strExpr _, _ => .error .notImplemented
  | .doNothingExpr, _ => .error .notImplemented
  | .terminalExpr _, _ => .error .notImplemented

/-- The `Machine` struct (src/main.rs lines 65-68). -/
structure Machine where
  expression : Expression
  environment : Env
deriving Repr

/-- `Machine::step` (src/main.rs lines 71-78): reduce the current expression
under a copy of the current environment; if the result is the
Terminal-with-environment variant, commit its environment as well. -/
def Machine.step (m : Machine) : Except ReduceError Machine :=
  match m.expression.reduce m.environment with
  | .error e => .error e
  | .ok s =>
      match s with
      | .terminalExpr env => .ok ⟨.terminalExpr env, env⟩
      | s' => .ok ⟨s', m.environment⟩

/-- `Machine::run` (src/main.rs lines 80-87): step while the current
expression is reducible (the trace printing is an observable side effect and
is not modelled).  The Rust loop is unbounded; here it takes a fuel bound and
returns `none` on fuel exhaustion — the termination claim shows a sufficient
fuel always exists, so the fuelled function coincides with the loop. -/
def Machine.run : Nat → Machine → Option (Except ReduceError Machine)
  | 0, m => if m.expression.is_reducible then none else some (.ok m)
  | n + 1, m =>
      if m.expression.is_reducible then
        match m.step with
        | .ok m' => Machine.run n m'
        | .error e => some (.error e)
      else
        some (.ok m)

/-- Proof device (not in the source): an upper bound on the number of steps a
reduction of the expression can take, strictly decreased by every successful
`reduce` of a reducible expression. -/
def redexCount : Expression → Nat
  | .addExpr l r => redexCount l + redexCount r + 1
  | .multiplyExpr l r => redexCount l + redexCount r + 1
  | .lessThanExpr l r => redexCount l + redexCount r + 1
  | .variableExpr _ => 1
  | .assignExpr _ e _ => redexCount e + 1
  | .numberExpr _ => 0
  | .booleanExpr _ => 0
  | .strExpr _ => 0
  | .doNothingExpr => 0
  | .terminalExpr _ => 0

/-- The trees of the arithmetic-correctness claim: built only from
Number, Add and Multiply nodes. -/
def isArith : Expression → Bool
  | .numberExpr _ => true
  | .addExpr l r => isArith l && isArith r
  | .multiplyExpr l r => isArith l && isArith r
  | _ => false

/-- The spec's "standard integer evaluation" of such a tree: exact sum for
Add, exact product for Multiply (spec §8, arithmetic correctness).  Stated
from the spec's words, to be compared with iterated `Expression.reduce`. -/
def evalArith : Expression → Int
  | .numberExpr n => n
  | .addExpr l r => evalArith l + evalArith r
  | .multiplyExpr l r => evalArith l * evalArith r
  | _ => 0

/-- The evaluation the program computes on such a tree: leaf payloads as
stored, and every sum and product wrapped to 32 bits, as at the `i32`
arithmetic sites of `Add::reduce` and `Multiply::reduce`. -/
def evalArith32 : Expression → Int
  | .numberExpr n => n
  | .addExpr l r => wrap32 (evalArith32 l + evalArith32 r)
  | .multiplyExpr l r => wrap32 (evalArith32 l * evalArith32 r)
  | _ => 0

/-- No node of a Number/Add/Multiply tree overflows `i32`: every leaf payload
and the exact sum/product at every interior node lies in the `i32` range. -/
def arithNoOverflow : Expression → Bool
  | .numberExpr n => int32Range n
  | .addExpr l r =>
      arithNoOverflow l && arithNoOverflow r
        && int32Range (evalArith l + evalArith r)
  | .multiplyExpr l r =>
      arithNoOverflow l && arithNoOverflow r
        && int32Range (evalArith l * evalArith r)
  | _ => false

/-- Every value stored in the environment is a terminal expression
(spec §3 environment invariant). -/
def allTerminal (env : Env) : Bool :=
  env.all (fun p => !p.2.is_reducible)

example : Expression.reduce (.addExpr (.numberExpr 1) (.numberExpr 2)) []
    = .ok (.numberExpr 3) := rfl

example : Machine.run 10
    ⟨.assignExpr "x" (.addExpr (.variableExpr "x") (.numberExpr 1)) [],
     [("x", .numberExpr 2)]⟩
    = some (.ok ⟨.terminalExpr [("x", .numberExpr 3)], [("x", .numberExpr 3)]⟩) := rfl

/-! ## Environment lemmas -/

lemma envLookup_envInsert_self (env : Env) (k : String) (v : Expression) :
    envLookup (envInsert env k v) k = some v := by
  induction env with
  | nil => simp [envInsert, envLookup]
  | cons p rest ih =>
      obtain ⟨k', v'⟩ := p
      by_cases hk : k' = k
      · simp [envInsert, hk, envLookup]
      · simp [envInsert, hk, envLookup, ih]

lemma envLookup_envInsert_other (env : Env) (k k2 : String) (v : Expression)
    (hne : k2 ≠ k) : envLookup (envInsert env k v) k2 = envLookup env k2 := by
  induction env with
  | nil => simp [envInsert, envLookup, Ne.symm hne]
  | cons p rest ih =>
      obtain ⟨k', v'⟩ := p
      by_cases hk : k' = k
      · subst hk
        simp [envInsert, envLookup, Ne.symm hne]
      · simp [envInsert, hk, envLookup, ih]

lemma allTerminal_envInsert (env : Env) (k : String) (v : Expression)
    (hall : allTerminal env = true) (hv : v.is_reducible = false) :
    allTerminal (envInsert env k v) = true := by
  induction env with
  | nil => simp [envInsert, allTerminal, hv]
  | cons p rest ih =>
      obtain ⟨k', v'⟩ := p
      simp only [allTerminal, List.all_cons, Bool.and_eq_true] at hall
      obtain ⟨hv', hrest⟩ := hall
      simp only [envInsert]
      by_cases hk : k' = k
      · rw [if_pos hk]
        simp [allTerminal, hv, hrest]
      · rw [if_neg hk]
        have := ih hrest
        simp only [allTerminal, List.all_cons, Bool.and_eq_true]
        exact ⟨hv', this⟩

/-! ## Reduction measure and error-shape lemmas -/

lemma redexCount_pos_of_reducible (e : Expression) (h : e.is_reducible = true) :
    0 < redexCount e := by
  cases e <;> simp_all [Expression.is_reducible, redexCount]

/-- Structural induction principle for `Expression` (the auto-generated
recursor of this nested inductive type has multiple motives, so a dedicated
one-motive principle is stated once and reused). -/
theorem Expression.inductionOn {motive : Expression → Prop}
    (hnum : ∀ n, motive (.numberExpr n))
    (hbool : ∀ b, motive (.booleanExpr b))
    (hstr : ∀ s, motive (.strExpr s))
    (hdo : motive .doNothingExpr)
    (hvar : ∀ name, motive (.variableExpr name))
    (hadd : ∀ l r, motive l → motive r → motive (.addExpr l r))
    (hmul : ∀ l r, motive l → motive r → motive (.multiplyExpr l r))
    (hlt : ∀ l r, motive l → motive r → motive (.lessThanExpr l r))
    (hasg : ∀ name e c, motive e → motive (.assignExpr name e c))
    (hterm : ∀ env, motive (.terminalExpr env)) :
    ∀ e, motive e
  | .numberExpr n => hnum n
  | .booleanExpr b => hbool b
  | .strExpr s => hstr s
  | .doNothingExpr => hdo
  | .variableExpr name => hvar name
  | .addExpr l r =>
      hadd l r
        (Expression.inductionOn hnum hbool hstr hdo hvar hadd hmul hlt hasg hterm l)
        (Expression.inductionOn hnum hbool hstr hdo hvar hadd hmul hlt hasg hterm r)
  | .multiplyExpr l r =>
      hmul l r
        (Expression.inductionOn hnum hbool hstr hdo hvar hadd hmul hlt hasg hterm l)
        (Expression.inductionOn hnum hbool hstr hdo hvar hadd hmul hlt hasg hterm r)
  | .lessThanExpr l r =>
      hlt l r
        (Expression.inductionOn hnum hbool hstr hdo hvar hadd hmul hlt hasg hterm l)
        (Expression.inductionOn hnum hbool hstr hdo hvar hadd hmul hlt hasg hterm r)
  | .assignExpr name e c =>
      hasg name e c
        (Expression.inductionOn hnum hbool hstr hdo hvar hadd hmul hlt hasg hterm e)
  | .terminalExpr env => hterm env

/-- Every successful one-step reduction strictly decreases the redex count
(a terminal expression never reduces successfully, so no hypothesis on
reducibility is needed). -/
lemma reduce_ok_lt (e : Expression) : ∀ (env : Env) (e' : Expression),
    e.reduce env = .ok e' → redexCount e' < redexCount e := by
  induction e using Expression.inductionOn with
  | hadd l r ihl ihr =>
      intro env e' hok
      simp only [Expression.reduce] at hok
      by_cases hl : l.is_reducible = true
      · rw [if_pos hl] at hok
        cases hlr : l.reduce env with
        | error err => rw [hlr] at hok; simp at hok
        | ok l' =>
            rw [hlr] at hok
            simp at hok
            subst hok
            have := ihl env l' hlr
            simp [redexCount]; omega
      · rw [if_neg hl] at hok
        by_cases hr : r.is_reducible = true
        · rw [if_pos hr] at hok
          cases hrr : r.reduce env with
          | error err => rw [hrr] at hok; simp at hok
          | ok r' =>
              rw [hrr] at hok
              simp at hok
              subst hok
              have := ihr env r' hrr
              simp [redexCount]; omega
        · rw [if_neg hr] at hok
          split at hok
          · simp at hok
            subst hok
            simp [redexCount]
          · simp at hok
  | hmul l r ihl ihr =>
      intro env e' hok
      simp only [Expression.reduce] at hok
      by_cases hl : l.is_reducible = true
      · rw [if_pos hl] at hok
        cases hlr : l.reduce env with
        | error err => rw [hlr] at hok; simp at hok
        | ok l' =>
            rw [hlr] at hok
            simp at hok
            subst hok
            have := ihl env l' hlr
            simp [redexCount]; omega
      · rw [if_neg hl] at hok
        by_cases hr : r.is_reducible = true
        · rw [if_pos hr] at hok
          cases hrr : r.reduce env with
          | error err => rw [hrr] at hok; simp at hok
          | ok r' =>
              rw [hrr] at hok
              simp at hok
              subst hok
              have := ihr env r' hrr
              simp [redexCount]; omega
        · rw [if_neg hr] at hok
          split at hok
          · simp at hok
            subst hok
            simp [redexCount]
          · simp at hok
  | hlt l r ihl ihr =>
      intro env e' hok
      simp only [Expression.reduce] at hok
      by_cases hl : l.is_reducible = true
      · rw [if_pos hl] at hok
        cases hlr : l.reduce env with
        | error err => rw [hlr] at hok; simp at hok
        | ok l' =>
            rw [hlr] at hok
            simp at hok
            subst hok
            have := ihl env l' hlr
            simp [redexCount]; omega
      · rw [if_neg hl] at hok
        by_cases hr : r.is_reducible = true
        · rw [if_pos hr] at hok
          cases hrr : r.reduce env with
          | error err => rw [hrr] at hok; simp at hok
          | ok r' =>
              rw [hrr] at hok
              simp at hok
              subst hok
              have := ihr env r' hrr
              simp [redexCount]; omega
        · rw [if_neg hr] at hok
          split at hok
          · simp at hok
            subst hok
            simp [redexCount]
          · simp at hok
  | hvar name =>
      intro env e' hok
      simp only [Expression.reduce] at hok
      cases hv : envLookup env name with
      | none => rw [hv] at hok; simp at hok
      | some v =>
          rw [hv] at hok
          cases v <;> simp at hok <;> subst hok <;> simp [redexCount]
  | hasg nm e c ih =>
      intro env e' hok
      simp only [Expression.reduce] at hok
      by_cases he : e.is_reducible = true
      · rw [if_pos he] at hok
        cases hre : e.reduce env with
        | error err => rw [hre] at hok; simp at hok
        | ok e2 =>
            rw [hre] at hok
            simp at hok
            subst hok
            have := ih env e2 hre
            simp [redexCount]; omega
      · rw [if_neg he] at hok
        simp at hok
        subst hok
        simp [redexCount]
  | hnum n => intro env e' hok; simp [Expression.reduce] at hok
  | hbool b => intro env e' hok; simp [Expression.reduce] at hok
  | hstr s => intro env e' hok; simp [Expression.reduce] at hok
  | hdo => intro env e' hok; simp [Expression.reduce] at hok
  | hterm env0 => intro env e' hok; simp [Expression.reduce] at hok

/-- A reducible expression never fails with the `Not Implemented` panic: that
panic site is reachable only for the terminal variants, and every nested
`reduce` call is guarded by an `is_reducible` check. -/
lemma reduce_reducible_error (e : Expression) : ∀ (env : Env) (err : ReduceError),
    e.is_reducible = true → e.reduce env = .error err → err ≠ .notImplemented := by
  induction e using Expression.inductionOn with
  | hadd l r ihl ihr =>
      intro env err _ herr
      simp only [Expression.reduce] at herr
      by_cases hl : l.is_reducible = true
      · rw [if_pos hl] at herr
        cases hlr : l.reduce env with
        | error e0 =>
            rw [hlr] at herr; simp at herr; subst herr
            exact ihl env e0 hl hlr
        | ok l' => rw [hlr] at herr; simp at herr
      · rw [if_neg hl] at herr
        by_cases hr : r.is_reducible = true
        · rw [if_pos hr] at herr
          cases hrr : r.reduce env with
          | error e0 =>
              rw [hrr] at herr; simp at herr; subst herr
              exact ihr env e0 hr hrr
          | ok r' => rw [hrr] at herr; simp at herr
        · rw [if_neg hr] at herr
          split at herr
          · simp at herr
          · simp at herr; subst herr; decide
  | hmul l r ihl ihr =>
      intro env err _ herr
      simp only [Expression.reduce] at herr
      by_cases hl : l.is_reducible = true
      · rw [if_pos hl] at herr
        cases hlr : l.reduce env with
        | error e0 =>
            rw [hlr] at herr; simp at herr; subst herr
            exact ihl env e0 hl hlr
        | ok l' => rw [hlr] at herr; simp at herr
      · rw [if_neg hl] at herr
        by_cases hr : r.is_reducible = true
        · rw [if_pos hr] at herr
          cases hrr : r.reduce env with
          | error e0 =>
              rw [hrr] at herr; simp at herr; subst herr
              exact ihr env e0 hr hrr
          | ok r' => rw [hrr] at herr; simp at herr
        · rw [if_neg hr] at herr
          split at herr
          · simp at herr
          · simp at herr; subst herr; decide
  | hlt l r ihl ihr =>
      intro env err _ herr
      simp only [Expression.reduce] at herr
      by_cases hl : l.is_reducible = true
      · rw [if_pos hl] at herr
        cases hlr : l.reduce env with
        | error e0 =>
            rw [hlr] at herr; simp at herr; subst herr
            exact ihl env e0 hl hlr
        | ok l' => rw [hlr] at herr; simp at herr
      · rw [if_neg hl] at herr
        by_cases hr : r.is_reducible = true
        · rw [if_pos hr] at herr
          cases hrr : r.reduce env with
          | error e0 =>
              rw [hrr] at herr; simp at herr; subst herr
              exact ihr env e0 hr hrr
          | ok r' => rw [hrr] at herr; simp at herr
        · rw [if_neg hr] at herr
          split at herr
          · simp at herr
          · simp at herr; subst herr; decide
  | hvar name =>
      intro env err _ herr
      simp only [Expression.reduce] at herr
      cases hv : envLookup env name with
      | none => rw [hv] at herr; simp at herr; subst herr; decide
      | some v =>
          rw [hv] at herr
          cases v <;> simp at herr <;> subst herr <;> decide
  | hasg nm e c ih =>
      intro env err _ herr
      simp only [Expression.reduce] at herr
      by_cases he : e.is_reducible = true
      · rw [if_pos he] at herr
        cases hre : e.reduce env with
        | error e0 =>
            rw [hre] at herr; simp at herr; subst herr
            exact ih env e0 he hre
        | ok e2 => rw [hre] at herr; simp at herr
      · rw [if_neg he] at herr; simp at herr
  | hnum n => intro env err hred _; simp [Expression.is_reducible] at hred
  | hbool b => intro env err hred _; simp [Expression.is_reducible] at hred
  | hstr s => intro env err hred _; simp [Expression.is_reducible] at hred
  | hdo => intro env err hred _; simp [Expression.is_reducible] at hred
  | hterm env0 => intro env err hred _; simp [Expression.is_reducible] at hred

/-- The only way a one-step reduction can produce a top-level
Terminal-with-environment node is the `Assign` commit, so the environment it
carries is the input environment with one irreducible value inserted. -/
lemma reduce_ok_terminal_env (e : Expression) (env env' : Env)
    (hok : e.reduce env = .ok (.terminalExpr env')) :
    ∃ nm v, v.is_reducible = false ∧ env' = envInsert env nm v := by
  cases e with
  | addExpr l r =>
      simp only [Expression.reduce] at hok
      by_cases hl : l.is_reducible = true
      · rw [if_pos hl] at hok
        cases hlr : l.reduce env with
        | error e0 => rw [hlr] at hok; simp at hok
        | ok l' => rw [hlr] at hok; simp at hok
      · rw [if_neg hl] at hok
        by_cases hr : r.is_reducible = true
        · rw [if_pos hr] at hok
          cases hrr : r.reduce env with
          | error e0 => rw [hrr] at hok; simp at hok
          | ok r' => rw [hrr] at hok; simp at hok
        · rw [if_neg hr] at hok
          split at hok <;> simp at hok
  | multiplyExpr l r =>
      simp only [Expression.reduce] at hok
      by_cases hl : l.is_reducible = true
      · rw [if_pos hl] at hok
        cases hlr : l.reduce env with
        | error e0 => rw [hlr] at hok; simp at hok
        | ok l' => rw [hlr] at hok; simp at hok
      · rw [if_neg hl] at hok
        by_cases hr : r.is_reducible = true
        · rw [if_pos hr] at hok
          cases hrr : r.reduce env with
          | error e0 => rw [hrr] at hok; simp at hok
          | ok r' => rw [hrr] at hok; simp at hok
        · rw [if_neg hr] at hok
          split at hok <;> simp at hok
  | lessThanExpr l r =>
      simp only [Expression.reduce] at hok
      by_cases hl : l.is_reducible = true
      · rw [if_pos hl] at hok
        cases hlr : l.reduce env with
        | error e0 => rw [hlr] at hok; simp at hok
        | ok l' => rw [hlr] at hok; simp at hok
      · rw [if_neg hl] at hok
        by_cases hr : r.is_reducible = true
        · rw [if_pos hr] at hok
          cases hrr : r.reduce env with
          | error e0 => rw [hrr] at hok; simp at hok
          | ok r' => rw [hrr] at hok; simp at hok
        · rw [if_neg hr] at hok
          split at hok <;> simp at hok
  | variableExpr name =>
      simp only [Expression.reduce] at hok
      cases hv : envLookup env name with
      | none => rw [hv] at hok; simp at hok
      | some v => rw [hv] at hok; cases v <;> simp at hok
  | assignExpr nm e c =>
      simp only [Expression.reduce] at hok
      by_cases he : e.is_reducible = true
      · rw [if_pos he] at hok
        cases hre : e.reduce env with
        | error e0 => rw [hre] at hok; simp at hok
        | ok e2 => rw [hre] at hok; simp at hok
      · rw [if_neg he] at hok
        simp at hok
        refine ⟨nm, e, ?_, hok.symm⟩
        simpa using he
  | numberExpr n => simp [Expression.reduce] at hok
  | booleanExpr b => simp [Expression.reduce] at hok
  | strExpr s => simp [Expression.reduce] at hok
  | doNothingExpr => simp [Expression.reduce] at hok
  | terminalExpr env0 => simp [Expression.reduce] at hok

/-! ## Machine.step characterization -/

lemma Machine.step_ok_terminal (m : Machine) (env' : Env)
    (h : m.expression.reduce m.environment = .ok (.terminalExpr env')) :
    m.step = .ok ⟨.terminalExpr env', env'⟩ := by
  simp [Machine.step, h]

lemma Machine.step_ok_other (m : Machine) (s : Expression)
    (h : m.expression.reduce m.environment = .ok s)
    (hs : ∀ env', s ≠ .terminalExpr env') :
    m.step = .ok ⟨s, m.environment⟩ := by
  cases s <;> simp [Machine.step, h]
  exact absurd rfl (hs _)

lemma Machine.step_error (m : Machine) (err : ReduceError)
    (h : m.expression.reduce m.environment = .error err) :
    m.step = .error err := by
  simp [Machine.step, h]

/-! ## Claim theorems -/

/-- C1: `Assign::reduce` — if the right-hand side is reducible, one step
returns a new Assign node with the same name and the right-hand side reduced
one step, and the machine environment is unchanged; if the right-hand side is
terminal, the step returns the Terminal-with-environment node wrapping the
environment with the binding name → value inserted or overwritten, every
other binding unchanged. -/
theorem assign_reduce_correct (name : String) (rhs : Expression) (c env : Env) :
    (∀ rhs', rhs.is_reducible = true → rhs.reduce env = .ok rhs' →
      Expression.reduce (.assignExpr name rhs c) env
          = .ok (.assignExpr name rhs' env) ∧
      Machine.step ⟨.assignExpr name rhs c, env⟩
          = .ok ⟨.assignExpr name rhs' env, env⟩) ∧
    (rhs.is_reducible = false →
      Expression.reduce (.assignExpr name rhs c) env
          = .ok (.terminalExpr (envInsert env name rhs)) ∧
      Machine.step ⟨.assignExpr name rhs c, env⟩
          = .ok ⟨.terminalExpr (envInsert env name rhs), envInsert env name rhs⟩ ∧
      envLookup (envInsert env name rhs) name = some rhs ∧
      ∀ k, k ≠ name → envLookup (envInsert env name rhs) k = envLookup env k) := by
  constructor
  · intro rhs' hred hok
    have h1 : Expression.reduce (.assignExpr name rhs c) env
        = .ok (.assignExpr name rhs' env) := by
      simp [Expression.reduce, hred, hok]
    exact ⟨h1, Machine.step_ok_other ⟨.assignExpr name rhs c, env⟩ _ h1
      (fun env' => by simp)⟩
  · intro hred
    have h1 : Expression.reduce (.assignExpr name rhs c) env
        = .ok (.terminalExpr (envInsert env name rhs)) := by
      simp [Expression.reduce, hred]
    exact ⟨h1, Machine.step_ok_terminal ⟨.assignExpr name rhs c, env⟩ _ h1,
      envLookup_envInsert_self env name rhs,
      fun k hk => envLookup_envInsert_other env name k rhs hk⟩

theorem assign_reduce_correct_witness :
    Expression.reduce
        (.assignExpr "x" (.addExpr (.variableExpr "x") (.numberExpr 1)) [])
        [("x", .numberExpr 2)]
      = .ok (.assignExpr "x" (.addExpr (.numberExpr 2) (.numberExpr 1))
          [("x", .numberExpr 2)]) ∧
    Expression.reduce (.assignExpr "x" (.numberExpr 3) []) [("x", .numberExpr 2)]
      = .ok (.terminalExpr [("x", .numberExpr 3)]) ∧
    envLookup [("x", .numberExpr 3)] "x" = some (.numberExpr 3) := by
  refine ⟨?_, ?_, ?_⟩
  · exact ((assign_reduce_correct "x"
      (.addExpr (.variableExpr "x") (.numberExpr 1)) [] [("x", .numberExpr 2)]).1
      (.addExpr (.numberExpr 2) (.numberExpr 1)) rfl rfl).1
  · exact ((assign_reduce_correct "x" (.numberExpr 3) []
      [("x", .numberExpr 2)]).2 rfl).1
  · exact ((assign_reduce_correct "x" (.numberExpr 3) []
      [("x", .numberExpr 2)]).2 rfl).2.2.1

/-- C2: `Machine::step` replaces the environment if and only if the
reduction result is the Terminal-with-environment variant (commit); for
every other result kind only the expression is replaced and the environment
is left exactly as it was. -/
theorem machine_step_env_commit (m : Machine) (s : Expression)
    (h : m.expression.reduce m.environment = .ok s) :
    (∀ env', s = .terminalExpr env' →
        m.step = .ok ⟨.terminalExpr env', env'⟩) ∧
    ((∀ env', s ≠ .terminalExpr env') → m.step = .ok ⟨s, m.environment⟩) := by
  constructor
  · intro env' hse
    subst hse
    exact Machine.step_ok_terminal m env' h
  · intro hs
    exact Machine.step_ok_other m s h hs

theorem machine_step_env_commit_witness :
    Machine.step ⟨.assignExpr "x" (.numberExpr 3) [], []⟩
      = .ok ⟨.terminalExpr [("x", .numberExpr 3)], [("x", .numberExpr 3)]⟩ ∧
    Machine.step ⟨.addExpr (.numberExpr 1) (.numberExpr 2), [("y", .numberExpr 0)]⟩
      = .ok ⟨.numberExpr 3, [("y", .numberExpr 0)]⟩ := by
  constructor
  · exact (machine_step_env_commit ⟨.assignExpr "x" (.numberExpr 3) [], []⟩
      (.terminalExpr [("x", .numberExpr 3)]) rfl).1 [("x", .numberExpr 3)] rfl
  · exact (machine_step_env_commit
      ⟨.addExpr (.numberExpr 1) (.numberExpr 2), [("y", .numberExpr 0)]⟩
      (.numberExpr 3) rfl).2 (fun env' => by simp)

/-- C4: for Add, Multiply and LessThan with a reducible left sub-expression,
one step reduces the left sub-expression only and leaves the right
sub-expression structurally unchanged, whether or not the right is itself
reducible (the right `r` is arbitrary). -/
theorem binary_left_first (l r l' : Expression) (env : Env)
    (hl : l.is_reducible = true) (hred : l.reduce env = .ok l') :
    Expression.reduce (.addExpr l r) env = .ok (.addExpr l' r) ∧
    Expression.reduce (.multiplyExpr l r) env = .ok (.multiplyExpr l' r) ∧
    Expression.reduce (.lessThanExpr l r) env = .ok (.lessThanExpr l' r) := by
  refine ⟨?_, ?_, ?_⟩ <;> simp [Expression.reduce, hl, hred]

theorem binary_left_first_witness :
    Expression.reduce
        (.addExpr (.addExpr (.numberExpr 1) (.numberExpr 2))
                  (.addExpr (.numberExpr 3) (.numberExpr 4))) []
      = .ok (.addExpr (.numberExpr 3)
                      (.addExpr (.numberExpr 3) (.numberExpr 4))) := by
  exact (binary_left_first (.addExpr (.numberExpr 1) (.numberExpr 2))
    (.addExpr (.numberExpr 3) (.numberExpr 4)) (.numberExpr 3) [] rfl rfl).1

/-- C5: `Variable::reduce` — an absent name fails with UndefinedVariable; a
name bound to a Number or StringLiteral returns a copy of the stored value in
one step; any other stored kind fails fatally. -/
theorem variable_reduce_correct (name : String) (env : Env) :
    (envLookup env name = none →
        Expression.reduce (.variableExpr name) env = .error .undefinedVariable) ∧
    (∀ n : Int, envLookup env name = some (.numberExpr n) →
        Expression.reduce (.variableExpr name) env = .ok (.numberExpr n)) ∧
    (∀ s : String, envLookup env name = some (.strExpr s) →
        Expression.reduce (.variableExpr name) env = .ok (.strExpr s)) ∧
    (∀ v, envLookup env name = some v →
        (∀ n : Int, v ≠ .numberExpr n) → (∀ s : String, v ≠ .strExpr s) →
        Expression.reduce (.variableExpr name) env = .error .invalidVariable) := by
  refine ⟨?_, ?_, ?_, ?_⟩
  · intro hv; simp [Expression.reduce, hv]
  · intro n hv; simp [Expression.reduce, hv]
  · intro s hv; simp [Expression.reduce, hv]
  · intro v hv hn hs
    simp only [Expression.reduce, hv]

theorem variable_reduce_correct_witness :
    Expression.reduce (.variableExpr "x") [("x", .numberExpr 3)]
      = .ok (.numberExpr 3) ∧
    Expression.reduce (.variableExpr "y") [("x", .numberExpr 3)]
      = .error .undefinedVariable := by
  constructor
  · exact (variable_reduce_correct "x" [("x", .numberExpr 3)]).2.1 3 rfl
  · exact (variable_reduce_correct "y" [("x", .numberExpr 3)]).1 rfl

/-- Wrapping is the identity exactly on `i32`-representable values. -/
lemma wrap32_eq_self (n : Int) (h : int32Range n = true) : wrap32 n = n := by
  simp only [int32Range, Bool.and_eq_true, decide_eq_true_eq] at h
  unfold wrap32
  omega

/-- C6 counterexample: the claim says two terminal Number operands make Add
return the Number holding their sum; at `Add(Number(2147483647), Number(1))`
the `i32` program wraps and returns `Number(-2147483648)`, not the sum
`Number(2147483648)`. -/
theorem binary_terminal_combine_counterexample :
    Expression.reduce (.addExpr (.numberExpr 2147483647) (.numberExpr 1)) []
      = .ok (.numberExpr (-2147483648)) ∧
    Expression.numberExpr (-2147483648)
      ≠ .numberExpr (2147483647 + 1) := by
  refine ⟨rfl, ?_⟩
  simp

/-- C6 amended: for Add, Multiply and LessThan whose two sub-expressions are
both terminal: if both are Numbers, Add/Multiply return the Number holding
the 32-bit two's-complement (wrapping) sum/product — which equals the exact
sum/product whenever that value is `i32`-representable — and LessThan
returns the Boolean comparison; otherwise the step fails fatally with the
`Invalid expression` panic (the spec's TypeMismatch). -/
theorem binary_terminal_combine (l r : Expression) (env : Env)
    (hl : l.is_reducible = false) (hr : r.is_reducible = false) :
    (∀ x y : Int, l = .numberExpr x → r = .numberExpr y →
        Expression.reduce (.addExpr l r) env
          = .ok (.numberExpr (wrap32 (x + y))) ∧
        Expression.reduce (.multiplyExpr l r) env
          = .ok (.numberExpr (wrap32 (x * y))) ∧
        Expression.reduce (.lessThanExpr l r) env
          = .ok (.booleanExpr (decide (x < y))) ∧
        (int32Range (x + y) = true → wrap32 (x + y) = x + y) ∧
        (int32Range (x * y) = true → wrap32 (x * y) = x * y)) ∧
    (((∀ x : Int, l ≠ .numberExpr x) ∨ (∀ y : Int, r ≠ .numberExpr y)) →
        Expression.reduce (.addExpr l r) env = .error .invalidExpression ∧
        Expression.reduce (.multiplyExpr l r) env = .error .invalidExpression ∧
        Expression.reduce (.lessThanExpr l r) env = .error .invalidExpression) := by
  constructor
  · intro x y hx hy
    subst hx; subst hy
    refine ⟨?_, ?_, ?_, fun h => wrap32_eq_self _ h, fun h => wrap32_eq_self _ h⟩
      <;> simp [Expression.reduce, Expression.is_reducible]
  · intro hne
    refine ⟨?_, ?_, ?_⟩ <;>
      · simp only [Expression.reduce, hl, hr, Bool.false_eq_true, if_false]
        split
        · rename_i x y
          rcases hne with h | h
          · exact absurd rfl (h x)
          · exact absurd rfl (h y)
        · rfl

theorem binary_terminal_combine_witness :
    Expression.reduce (.addExpr (.numberExpr 2) (.numberExpr 3)) []
      = .ok (.numberExpr 5) ∧
    Expression.reduce (.lessThanExpr (.booleanExpr true) (.numberExpr 3)) []
      = .error .invalidExpression := by
  constructor
  · exact ((binary_terminal_combine (.numberExpr 2) (.numberExpr 3) []
      rfl rfl).1 2 3 rfl rfl).1
  · exact ((binary_terminal_combine (.booleanExpr true) (.numberExpr 3) []
      rfl rfl).2 (Or.inl (fun x => by simp))).2.2

/-- C7 counterexample: the claim says a terminal expression reduces to an
equal expression; on the code, `Expression::reduce` on `Number(5)` takes the
`panic!("Not Implemented")` arm and does not return the expression. -/
theorem terminal_reduce_not_self :
    Expression.reduce (.numberExpr 5) [] ≠ .ok (.numberExpr 5) := by
  simp [Expression.reduce]

/-- C7 amended: for every terminal expression and environment, `reduce` hits
the `panic!("Not Implemented")` catch-all, so invoking `step` on a Halted
machine aborts fatally instead of being an idempotent no-op. -/
theorem terminal_reduce_fails (e : Expression) (env : Env)
    (h : e.is_reducible = false) :
    Expression.reduce e env = .error .notImplemented ∧
    Machine.step ⟨e, env⟩ = .error .notImplemented := by
  have h1 : Expression.reduce e env = .error .notImplemented := by
    cases e <;> simp_all [Expression.is_reducible, Expression.reduce]
  exact ⟨h1, Machine.step_error ⟨e, env⟩ _ h1⟩

theorem terminal_reduce_fails_witness :
    Expression.reduce .doNothingExpr [] = .error .notImplemented ∧
    Machine.step ⟨.doNothingExpr, []⟩ = .error .notImplemented :=
  terminal_reduce_fails .doNothingExpr [] rfl

/-- C8: if every value in the machine environment is terminal, the
environment after any successful step still contains only terminal values;
the Assign commit, the sole mutation point, only inserts a right-hand side
that has already been checked irreducible. -/
theorem step_preserves_allTerminal (m m' : Machine)
    (hall : allTerminal m.environment = true) (hstep : m.step = .ok m') :
    allTerminal m'.environment = true := by
  unfold Machine.step at hstep
  cases hred : m.expression.reduce m.environment with
  | error err => rw [hred] at hstep; simp at hstep
  | ok s =>
      rw [hred] at hstep
      cases s
      case terminalExpr env' =>
        simp at hstep
        obtain ⟨nm, v, hv, henv⟩ :=
          reduce_ok_terminal_env m.expression m.environment env' hred
        subst hstep
        show allTerminal env' = true
        rw [henv]
        exact allTerminal_envInsert m.environment nm v hall hv
      all_goals
        simp at hstep
        subst hstep
        exact hall

theorem step_preserves_allTerminal_witness :
    allTerminal [("x", Expression.numberExpr 1)] = true :=
  step_preserves_allTerminal
    ⟨.assignExpr "x" (.numberExpr 1) [], []⟩
    ⟨.terminalExpr [("x", .numberExpr 1)], [("x", .numberExpr 1)]⟩
    rfl rfl

/-- C10: an Assign whose right-hand side reduces to a Boolean commits
`Boolean(true)` into the environment without error (first step reduces the
LessThan, second step commits), and a subsequent reduction of
`Variable("x")` under that environment fails fatally with the
`Invalid variable` panic, because variable lookup accepts only Number and
StringLiteral. -/
theorem boolean_env_poison :
    Machine.step
        ⟨.assignExpr "x" (.lessThanExpr (.numberExpr 1) (.numberExpr 2)) [], []⟩
      = .ok ⟨.assignExpr "x" (.booleanExpr true) [], []⟩ ∧
    Machine.step ⟨.assignExpr "x" (.booleanExpr true) [], []⟩
      = .ok ⟨.terminalExpr [("x", .booleanExpr true)],
             [("x", .booleanExpr true)]⟩ ∧
    Machine.run 2
        ⟨.assignExpr "x" (.lessThanExpr (.numberExpr 1) (.numberExpr 2)) [], []⟩
      = some (.ok ⟨.terminalExpr [("x", .booleanExpr true)],
                   [("x", .booleanExpr true)]⟩) ∧
    Expression.reduce (.variableExpr "x") [("x", .booleanExpr true)]
      = .error .invalidVariable :=
  ⟨rfl, rfl, rfl, rfl⟩

/-! ## Arithmetic trees: preservation, progress, evaluation -/

lemma isArith_not_terminal (e : Expression) (ha : isArith e = true) :
    ∀ env', e ≠ .terminalExpr env' := by
  intro env'
  cases e <;> simp_all [isArith]

lemma isArith_irreducible_number (e : Expression) (ha : isArith e = true)
    (hirr : e.is_reducible = false) : e = .numberExpr (evalArith32 e) := by
  cases e <;> simp_all [isArith, Expression.is_reducible, evalArith32]

/-- One-step reduction of a Number/Add/Multiply tree stays in that fragment
and preserves the standard integer evaluation. -/
lemma isArith_reduce (e : Expression) : ∀ (env : Env) (e' : Expression),
    isArith e = true → e.reduce env = .ok e' →
    isArith e' = true ∧ evalArith32 e' = evalArith32 e := by
  induction e using Expression.inductionOn with
  | hadd l r ihl ihr =>
      intro env e' ha hok
      simp only [isArith, Bool.and_eq_true] at ha
      obtain ⟨hal, har⟩ := ha
      simp only [Expression.reduce] at hok
      by_cases hl : l.is_reducible = true
      · rw [if_pos hl] at hok
        cases hlr : l.reduce env with
        | error e0 => rw [hlr] at hok; simp at hok
        | ok l' =>
            rw [hlr] at hok; simp at hok; subst hok
            obtain ⟨h1, h2⟩ := ihl env l' hal hlr
            simp [isArith, evalArith32, h1, h2, har]
      · rw [if_neg hl] at hok
        by_cases hr : r.is_reducible = true
        · rw [if_pos hr] at hok
          cases hrr : r.reduce env with
          | error e0 => rw [hrr] at hok; simp at hok
          | ok r' =>
              rw [hrr] at hok; simp at hok; subst hok
              obtain ⟨h1, h2⟩ := ihr env r' har hrr
              simp [isArith, evalArith32, h1, h2, hal]
        · rw [if_neg hr] at hok
          obtain ⟨x, hx⟩ : ∃ x, l = .numberExpr x :=
            ⟨evalArith32 l, isArith_irreducible_number l hal (by simpa using hl)⟩
          obtain ⟨y, hy⟩ : ∃ y, r = .numberExpr y :=
            ⟨evalArith32 r, isArith_irreducible_number r har (by simpa using hr)⟩
          subst hx; subst hy
          simp at hok
          subst hok
          simp [isArith, evalArith32]
  | hmul l r ihl ihr =>
      intro env e' ha hok
      simp only [isArith, Bool.and_eq_true] at ha
      obtain ⟨hal, har⟩ := ha
      simp only [Expression.reduce] at hok
      by_cases hl : l.is_reducible = true
      · rw [if_pos hl] at hok
        cases hlr : l.reduce env with
        | error e0 => rw [hlr] at hok; simp at hok
        | ok l' =>
            rw [hlr] at hok; simp at hok; subst hok
            obtain ⟨h1, h2⟩ := ihl env l' hal hlr
            simp [isArith, evalArith32, h1, h2, har]
      · rw [if_neg hl] at hok
        by_cases hr : r.is_reducible = true
        · rw [if_pos hr] at hok
          cases hrr : r.reduce env with
          | error e0 => rw [hrr] at hok; simp at hok
          | ok r' =>
              rw [hrr] at hok; simp at hok; subst hok
              obtain ⟨h1, h2⟩ := ihr env r' har hrr
              simp [isArith, evalArith32, h1, h2, hal]
        · rw [if_neg hr] at hok
          obtain ⟨x, hx⟩ : ∃ x, l = .numberExpr x :=
            ⟨evalArith32 l, isArith_irreducible_number l hal (by simpa using hl)⟩
          obtain ⟨y, hy⟩ : ∃ y, r = .numberExpr y :=
            ⟨evalArith32 r, isArith_irreducible_number r har (by simpa using hr)⟩
          subst hx; subst hy
          simp at hok
          subst hok
          simp [isArith, evalArith32]
  | hnum n => intro env e' ha hok; simp [Expression.reduce] at hok
  | hbool b => intro env e' ha _; simp [isArith] at ha
  | hstr s => intro env e' ha _; simp [isArith] at ha
  | hdo => intro env e' ha _; simp [isArith] at ha
  | hvar name => intro env e' ha _; simp [isArith] at ha
  | hlt l r _ _ => intro env e' ha _; simp [isArith] at ha
  | hasg nm e c _ => intro env e' ha _; simp [isArith] at ha
  | hterm env0 => intro env e' ha _; simp [isArith] at ha

/-- A reducible Number/Add/Multiply tree always reduces successfully. -/
lemma isArith_progress (e : Expression) : ∀ (env : Env),
    isArith e = true → e.is_reducible = true →
    ∃ e', e.reduce env = .ok e' := by
  induction e using Expression.inductionOn with
  | hadd l r ihl ihr =>
      intro env ha _
      simp only [isArith, Bool.and_eq_true] at ha
      obtain ⟨hal, har⟩ := ha
      by_cases hl : l.is_reducible = true
      · obtain ⟨l', hlr⟩ := ihl env hal hl
        exact ⟨.addExpr l' r, by simp [Expression.reduce, hl, hlr]⟩
      · by_cases hr : r.is_reducible = true
        · obtain ⟨r', hrr⟩ := ihr env har hr
          exact ⟨.addExpr l r', by simp [Expression.reduce, hl, hr, hrr]⟩
        · obtain ⟨x, hx⟩ : ∃ x, l = .numberExpr x :=
            ⟨evalArith32 l, isArith_irreducible_number l hal (by simpa using hl)⟩
          obtain ⟨y, hy⟩ : ∃ y, r = .numberExpr y :=
            ⟨evalArith32 r, isArith_irreducible_number r har (by simpa using hr)⟩
          subst hx; subst hy
          exact ⟨.numberExpr (wrap32 (x + y)),
            by simp [Expression.reduce, Expression.is_reducible]⟩
  | hmul l r ihl ihr =>
      intro env ha _
      simp only [isArith, Bool.and_eq_true] at ha
      obtain ⟨hal, har⟩ := ha
      by_cases hl : l.is_reducible = true
      · obtain ⟨l', hlr⟩ := ihl env hal hl
        exact ⟨.multiplyExpr l' r, by simp [Expression.reduce, hl, hlr]⟩
      · by_cases hr : r.is_reducible = true
        · obtain ⟨r', hrr⟩ := ihr env har hr
          exact ⟨.multiplyExpr l r', by simp [Expression.reduce, hl, hr, hrr]⟩
        · obtain ⟨x, hx⟩ : ∃ x, l = .numberExpr x :=
            ⟨evalArith32 l, isArith_irreducible_number l hal (by simpa using hl)⟩
          obtain ⟨y, hy⟩ : ∃ y, r = .numberExpr y :=
            ⟨evalArith32 r, isArith_irreducible_number r har (by simpa using hr)⟩
          subst hx; subst hy
          exact ⟨.numberExpr (wrap32 (x * y)),
            by simp [Expression.reduce, Expression.is_reducible]⟩
  | hnum n => intro env _ hred; simp [Expression.is_reducible] at hred
  | hbool b => intro env ha _; simp [isArith] at ha
  | hstr s => intro env ha _; simp [isArith] at ha
  | hdo => intro env ha _; simp [isArith] at ha
  | hvar name => intro env ha _; simp [isArith] at ha
  | hlt l r _ _ => intro env ha _; simp [isArith] at ha
  | hasg nm e c _ => intro env ha _; simp [isArith] at ha
  | hterm env0 => intro env ha _; simp [isArith] at ha

/-- Running a Number/Add/Multiply tree with fuel at least its redex count
halts with the Number holding its standard integer evaluation, leaving the
environment untouched. -/
lemma arith_run (k : Nat) : ∀ (e : Expression) (env : Env),
    isArith e = true → redexCount e ≤ k →
    Machine.run k ⟨e, env⟩ = some (.ok ⟨.numberExpr (evalArith32 e), env⟩) := by
  induction k with
  | zero =>
      intro e env ha hc
      cases hb : e.is_reducible with
      | true =>
          exact absurd hc (by have := redexCount_pos_of_reducible e hb; omega)
      | false =>
          have he := isArith_irreducible_number e ha hb
          rw [← he]
          simp [Machine.run, hb]
  | succ n ih =>
      intro e env ha hc
      cases hb : e.is_reducible with
      | false =>
          have he := isArith_irreducible_number e ha hb
          rw [← he]
          simp [Machine.run, hb]
      | true =>
          obtain ⟨e', hok⟩ := isArith_progress e env ha hb
          obtain ⟨ha', heval⟩ := isArith_reduce e env e' ha hok
          have hstep : Machine.step ⟨e, env⟩ = .ok ⟨e', env⟩ :=
            Machine.step_ok_other ⟨e, env⟩ e' hok (isArith_not_terminal e' ha')
          have hlt := reduce_ok_lt e env e' hok
          have hc' : redexCount e' ≤ n := by omega
          rw [← heval]
          simp only [Machine.run, hb, if_true, hstep]
          exact ih e' env ha' hc'

/-- On a tree in which no node overflows `i32`, the program's wrapped
evaluation agrees with the spec's standard integer evaluation. -/
lemma arithNoOverflow_eval (e : Expression) :
    isArith e = true → arithNoOverflow e = true →
    evalArith32 e = evalArith e := by
  induction e using Expression.inductionOn with
  | hnum n => intro _ _; simp [evalArith32, evalArith]
  | hadd l r ihl ihr =>
      intro ha hno
      simp only [isArith, Bool.and_eq_true] at ha
      obtain ⟨hal, har⟩ := ha
      simp only [arithNoOverflow, Bool.and_eq_true] at hno
      obtain ⟨⟨hnl, hnr⟩, hrange⟩ := hno
      simp only [evalArith32, evalArith]
      rw [ihl hal hnl, ihr har hnr]
      exact wrap32_eq_self _ hrange
  | hmul l r ihl ihr =>
      intro ha hno
      simp only [isArith, Bool.and_eq_true] at ha
      obtain ⟨hal, har⟩ := ha
      simp only [arithNoOverflow, Bool.and_eq_true] at hno
      obtain ⟨⟨hnl, hnr⟩, hrange⟩ := hno
      simp only [evalArith32, evalArith]
      rw [ihl hal hnl, ihr har hnr]
      exact wrap32_eq_self _ hrange
  | hbool b => intro ha _; simp [isArith] at ha
  | hstr s => intro ha _; simp [isArith] at ha
  | hdo => intro ha _; simp [isArith] at ha
  | hvar name => intro ha _; simp [isArith] at ha
  | hlt l r _ _ => intro ha _; simp [isArith] at ha
  | hasg nm e c _ => intro ha _; simp [isArith] at ha
  | hterm env0 => intro ha _; simp [isArith] at ha

/-- C3 counterexample: the claim says iterating `reduce` to a fixed point on
a Number/Add/Multiply tree yields the standard integer evaluation; on
`Add(Number(2147483647), Number(1))` the `i32` program halts at
`Number(-2147483648)` (two's-complement wrap; a debug build panics here),
while the standard evaluation is `2147483648`. -/
theorem arith_correct_counterexample :
    Machine.run 1 ⟨.addExpr (.numberExpr 2147483647) (.numberExpr 1), []⟩
      = some (.ok ⟨.numberExpr (-2147483648), []⟩) ∧
    evalArith (.addExpr (.numberExpr 2147483647) (.numberExpr 1))
      = 2147483648 ∧
    Expression.numberExpr (-2147483648) ≠ .numberExpr 2147483648 := by
  refine ⟨rfl, rfl, ?_⟩
  simp

/-- C3 amended: for every tree built only from Number, Add and Multiply
nodes, iterating the one-step `reduce` until the result is irreducible
yields a single Number whose value is the 32-bit two's-complement (wrapping)
evaluation of the tree; whenever no node of the tree overflows `i32`, that
value is exactly the standard integer evaluation (sum for Add, product for
Multiply). -/
theorem arith_correct (e : Expression) (env : Env) (ha : isArith e = true) :
    (∃ n, Machine.run n ⟨e, env⟩
      = some (.ok ⟨.numberExpr (evalArith32 e), env⟩)) ∧
    (arithNoOverflow e = true → evalArith32 e = evalArith e) :=
  ⟨⟨redexCount e, arith_run (redexCount e) e env ha (Nat.le_refl _)⟩,
   fun hno => arithNoOverflow_eval e ha hno⟩

theorem arith_correct_witness :
    (∃ n, Machine.run n
        ⟨.addExpr (.numberExpr 5)
            (.multiplyExpr (.numberExpr 4) (.numberExpr 4)), []⟩
      = some (.ok ⟨.numberExpr 21, []⟩)) ∧
    evalArith32 (.addExpr (.numberExpr 5)
        (.multiplyExpr (.numberExpr 4) (.numberExpr 4)))
      = evalArith (.addExpr (.numberExpr 5)
        (.multiplyExpr (.numberExpr 4) (.numberExpr 4))) :=
  ⟨(arith_correct
      (.addExpr (.numberExpr 5) (.multiplyExpr (.numberExpr 4) (.numberExpr 4)))
      [] rfl).1,
   (arith_correct
      (.addExpr (.numberExpr 5) (.multiplyExpr (.numberExpr 4) (.numberExpr 4)))
      [] rfl).2 rfl⟩

/-- With fuel at least the redex count, the run loop always completes:
either with a halted machine (irreducible expression) or with one of the
run-time failures — never with the `Not Implemented` panic reserved for
reducing a terminal node. -/
lemma run_total (k : Nat) : ∀ (m : Machine), redexCount m.expression ≤ k →
    ∃ r, Machine.run k m = some r ∧
      (∀ m', r = .ok m' → m'.expression.is_reducible = false) ∧
      (∀ ε, r = .error ε → ε ≠ .notImplemented) := by
  induction k with
  | zero =>
      intro m hc
      cases hb : m.expression.is_reducible with
      | true =>
          exact absurd hc (by have := redexCount_pos_of_reducible _ hb; omega)
      | false =>
          refine ⟨.ok m, by simp [Machine.run, hb], ?_, ?_⟩
          · intro m' h
            simp at h
            subst h
            exact hb
          · intro ε h
            simp at h
  | succ n ih =>
      intro m hc
      cases hb : m.expression.is_reducible with
      | false =>
          refine ⟨.ok m, by simp [Machine.run, hb], ?_, ?_⟩
          · intro m' h
            simp at h
            subst h
            exact hb
          · intro ε h
            simp at h
      | true =>
          cases hred : m.expression.reduce m.environment with
          | error err =>
              have hstep := Machine.step_error m err hred
              refine ⟨.error err, ?_, ?_, ?_⟩
              · simp [Machine.run, hb, hstep]
              · intro m' h
                simp at h
              · intro ε h
                simp at h
                subst h
                exact reduce_reducible_error m.expression m.environment err hb hred
          | ok s =>
              have hlt := reduce_ok_lt m.expression m.environment s hred
              have hcs : redexCount s ≤ n := by omega
              by_cases hterm : ∃ env', s = .terminalExpr env'
              · obtain ⟨env', hse⟩ := hterm
                subst hse
                have hstep := Machine.step_ok_terminal m env' hred
                obtain ⟨r, hr, hok, hne⟩ :=
                  ih ⟨.terminalExpr env', env'⟩ (by simpa using hcs)
                refine ⟨r, ?_, hok, hne⟩
                simp [Machine.run, hb, hstep, hr]
              · have hstep := Machine.step_ok_other m s hred
                  (fun env' h => hterm ⟨env', h⟩)
                obtain ⟨r, hr, hok, hne⟩ := ih ⟨s, m.environment⟩ hcs
                refine ⟨r, ?_, hok, hne⟩
                simp [Machine.run, hb, hstep, hr]

/-- C9: for every initial expression and environment, the run loop never
loops forever: some finite fuel makes it complete, and it completes either
by halting on an irreducible expression or by aborting fatally with one of
the run-time failure conditions (never the `Not Implemented` panic). -/
theorem run_terminates (m : Machine) :
    ∃ (n : Nat) (r : Except ReduceError Machine),
      Machine.run n m = some r ∧
      (∀ m', r = .ok m' → m'.expression.is_reducible = false) ∧
      (∀ ε, r = .error ε → ε ≠ .notImplemented) := by
  obtain ⟨r, hr, hok, hne⟩ := run_total (redexCount m.expression) m (Nat.le_refl _)
  exact ⟨redexCount m.expression, r, hr, hok, hne⟩
